import Mathlib

/-!
Shallow embedding of the post-processing and tokenization core of the
`infergo` library (Go).  Float32 values are modelled as exact rationals
(for the order-theoretic detection pipeline) and as real numbers (for the
softmax, which genuinely uses `exp`).  Go maps are modelled as association
lists, Go strings as lists of characters.
-/

namespace Infergo

/-- Axis-aligned box `(x1, y1, x2, y2)`, from `postprocess.Box`. -/
structure Box (α : Type) where
  X1 : α
  Y1 : α
  X2 : α
  Y2 : α
deriving DecidableEq, Repr

/-- Intersection area of two boxes, clamped at zero, as computed inside `ml.IoU`. -/
def interArea {α : Type} [LinearOrderedField α] (a b : Box α) : α :=
  max 0 (min a.X2 b.X2 - max a.X1 b.X1) * max 0 (min a.Y2 b.Y2 - max a.Y1 b.Y1)

/-- Denominator `areaA + areaB - intersectArea` of `ml.IoU`. -/
def iouDenom {α : Type} [LinearOrderedField α] (a b : Box α) : α :=
  (a.X2 - a.X1) * (a.Y2 - a.Y1) + (b.X2 - b.X1) * (b.Y2 - b.Y1) - interArea a b

/-- Embedding of `ml.IoU`.  The Go code divides unconditionally; when the
denominator is zero the float division `0/0` produces NaN.  We model that
failure explicitly: `none` stands for the NaN produced by a zero denominator,
`some v` for an ordinary quotient. -/
def IoU {α : Type} [LinearOrderedField α] (a b : Box α) : Option α :=
  if iouDenom a b = 0 then none else some (interArea a b / iouDenom a b)

/-- Boolean test `ml.IoU(box1, box2) > iouThreshold` as used by the NMS sweep.
A NaN (zero-denominator) IoU compares false against any threshold in Go. -/
def iouAbove {α : Type} [LinearOrderedField α] (a b : Box α) (thr : α) : Bool :=
  match IoU a b with
  | none => false
  | some v => decide (thr < v)

/-- Classification record from `postprocess.Classification`. -/
structure Classification (α : Type) where
  Label : String
  Class : ℤ
  Confidence : α
deriving DecidableEq, Repr

/-- Detection record from `postprocess.Detection`. -/
structure Detection (α : Type) where
  Label : String
  Class : ℤ
  Confidence : α
  Box : Box α
deriving DecidableEq, Repr

/-- Comparator used by the NMS sort: `detections[i].Confidence > detections[j].Confidence`.
The Go comparison sort produces a list weakly sorted by this relation. -/
def detGE {α : Type} [LinearOrderedField α] (a b : Detection α) : Prop :=
  b.Confidence ≤ a.Confidence

instance {α : Type} [LinearOrderedField α] : DecidableRel (detGE (α := α)) :=
  fun a b => inferInstanceAs (Decidable (b.Confidence ≤ a.Confidence))

instance {α : Type} [LinearOrderedField α] : IsTotal (Detection α) detGE :=
  ⟨fun a b => le_total b.Confidence a.Confidence⟩

instance {α : Type} [LinearOrderedField α] : IsTrans (Detection α) detGE :=
  ⟨fun _ _ _ h1 h2 => le_trans h2 h1⟩

/-- Sort of the detections slice by descending confidence performed in place by
`NonMaxSuppression` via `sort.Slice`. -/
def sortDetections {α : Type} [LinearOrderedField α] (dets : List (Detection α)) :
    List (Detection α) :=
  List.insertionSort detGE dets

/-- Greedy suppression sweep of `NonMaxSuppression`: the first unsuppressed
candidate is kept, and every later candidate of the same class whose IoU with
it exceeds the threshold is marked suppressed (modelled by filtering it out of
the remainder). -/
def nmsSweep {α : Type} [LinearOrderedField α] :
    List (Detection α) → α → List (Detection α)
  | [], _ => []
  | d :: rest, thr =>
      d :: nmsSweep (rest.filter fun e =>
        !(decide (e.Class = d.Class) && iouAbove d.Box e.Box thr)) thr
termination_by l _ => l.length
decreasing_by
  simp only [List.length_cons]
  exact Nat.lt_succ_of_le (List.length_filter_le _ _)

/-- Embedding of `postprocess.NonMaxSuppression`.  The first component is the
content of the caller-supplied slice after the call (the Go code sorts that
slice in place); the second component is the freshly built result list. -/
def NonMaxSuppression {α : Type} [LinearOrderedField α]
    (detections : List (Detection α)) (iouThreshold : α) :
    List (Detection α) × List (Detection α) :=
  (sortDetections detections, nmsSweep (sortDetections detections) iouThreshold)

end Infergo

namespace Infergo

/-- Result list of `NonMaxSuppression` (second return value of the embedding). -/
def nmsResult {α : Type} [LinearOrderedField α]
    (detections : List (Detection α)) (iouThreshold : α) : List (Detection α) :=
  (NonMaxSuppression detections iouThreshold).2

/-- Placeholder detection used only as the default value of list indexing. -/
def dummyDet : Detection ℚ := ⟨"", 0, 0, ⟨0, 0, 0, 0⟩⟩

theorem interArea_comm {α : Type} [LinearOrderedField α] (a b : Box α) :
    interArea a b = interArea b a := by
  unfold interArea
  rw [min_comm a.X2 b.X2, max_comm a.X1 b.X1, min_comm a.Y2 b.Y2, max_comm a.Y1 b.Y1]

theorem iouDenom_comm {α : Type} [LinearOrderedField α] (a b : Box α) :
    iouDenom a b = iouDenom b a := by
  unfold iouDenom
  rw [interArea_comm a b, add_comm]

theorem iouAbove_comm {α : Type} [LinearOrderedField α] (a b : Box α) (thr : α) :
    iouAbove a b thr = iouAbove b a thr := by
  unfold iouAbove IoU
  rw [iouDenom_comm a b, interArea_comm a b]

theorem nmsSweep_subset {α : Type} [LinearOrderedField α]
    (l : List (Detection α)) (thr : α) : nmsSweep l thr ⊆ l := by
  induction l, thr using nmsSweep.induct with
  | case1 thr => simp [nmsSweep]
  | case2 d rest thr ih =>
      rw [nmsSweep]
      intro x hx
      rcases List.mem_cons.1 hx with h | h
      · exact h ▸ List.mem_cons_self _ _
      · exact List.mem_cons_of_mem _ (List.mem_of_mem_filter (ih h))

theorem nmsSweep_pairwise {α : Type} [LinearOrderedField α]
    (l : List (Detection α)) (thr : α) :
    (nmsSweep l thr).Pairwise
      (fun a b => a.Class = b.Class → iouAbove a.Box b.Box thr = false) := by
  induction l, thr using nmsSweep.induct with
  | case1 thr => simp [nmsSweep]
  | case2 d rest thr ih =>
      rw [nmsSweep]
      refine List.Pairwise.cons (fun b hb hclass => ?_) ih
      have hb' := nmsSweep_subset _ _ hb
      have hp := List.of_mem_filter hb'
      simp only [Bool.not_eq_eq_eq_not, Bool.not_true, Bool.and_eq_false_imp,
        decide_eq_true_eq] at hp
      · revert hp
        simp [hclass]

theorem nmsSweep_cover {α : Type} [LinearOrderedField α]
    (l : List (Detection α)) (thr : α) :
    ∀ d ∈ l, d ∈ nmsSweep l thr ∨
      ∃ r ∈ nmsSweep l thr, r.Class = d.Class ∧ iouAbove r.Box d.Box thr = true := by
  induction l, thr using nmsSweep.induct with
  | case1 thr => intro d hd; cases hd
  | case2 d rest thr ih =>
      intro x hx
      rw [nmsSweep]
      rcases List.mem_cons.1 hx with h | h
      · exact Or.inl (h ▸ List.mem_cons_self _ _)
      · by_cases hf :
          (!(decide (x.Class = d.Class) && iouAbove d.Box x.Box thr)) = true
        · rcases ih x (List.mem_filter.2 ⟨h, hf⟩) with h1 | ⟨r, hr, hrc, hri⟩
          · exact Or.inl (List.mem_cons_of_mem _ h1)
          · exact Or.inr ⟨r, List.mem_cons_of_mem _ hr, hrc, hri⟩
        · have hf' : (decide (x.Class = d.Class) && iouAbove d.Box x.Box thr) = true := by
            revert hf; simp
          rw [Bool.and_eq_true] at hf'
          rcases hf' with ⟨hc, hi⟩
          exact Or.inr ⟨d, List.mem_cons_self _ _, (of_decide_eq_true hc).symm, hi⟩

/-- Concrete detection used in witnesses: class 0, confidence 2, box (0,0,1,1). -/
def wd1 : Detection ℚ := ⟨"cat", 0, 2, ⟨0, 0, 1, 1⟩⟩

/-- Concrete detection used in witnesses: class 0, confidence 1, box (2,2,3,3). -/
def wd2 : Detection ℚ := ⟨"cat", 0, 1, ⟨2, 2, 3, 3⟩⟩

theorem nmsResult_wd : nmsResult [wd1, wd2] 0 = [wd1, wd2] := by
  norm_num [nmsResult, NonMaxSuppression, sortDetections, nmsSweep,
    List.insertionSort, List.orderedInsert, iouAbove, IoU, iouDenom, interArea,
    detGE, List.filter, wd1, wd2]

/-- C1: in the list returned by NonMaxSuppression no two distinct retained
detections with the same class index have IoU above the threshold; moreover a
detection is only ever suppressed by a retained detection of the same class
(every input detection either survives or has a same-class suppressor in the
result), so detections of different classes never suppress one another. -/
theorem nonMaxSuppression_class_aware (dets : List (Detection ℚ)) (thr : ℚ) :
    (∀ i j : ℕ, i < (nmsResult dets thr).length → j < (nmsResult dets thr).length →
      i ≠ j →
      ((nmsResult dets thr).getD i dummyDet).Class
        = ((nmsResult dets thr).getD j dummyDet).Class →
      iouAbove ((nmsResult dets thr).getD i dummyDet).Box
        ((nmsResult dets thr).getD j dummyDet).Box thr = false)
    ∧ (∀ d ∈ dets, d ∈ nmsResult dets thr ∨
        ∃ r ∈ nmsResult dets thr,
          r.Class = d.Class ∧ iouAbove r.Box d.Box thr = true) := by
  have hpw := nmsSweep_pairwise (sortDetections dets) thr
  rw [List.pairwise_iff_get] at hpw
  constructor
  · intro i j hi hj hij hc
    rw [List.getD_eq_get _ _ hi, List.getD_eq_get _ _ hj] at hc ⊢
    rcases lt_trichotomy i j with h | h | h
    · exact hpw ⟨i, hi⟩ ⟨j, hj⟩ h hc
    · exact absurd h hij
    · have := hpw ⟨j, hj⟩ ⟨i, hi⟩ h hc.symm
      rw [iouAbove_comm]
      exact this
  · intro d hd
    have hd' : d ∈ sortDetections dets :=
      ((List.perm_insertionSort detGE dets).mem_iff).2 hd
    exact nmsSweep_cover (sortDetections dets) thr d hd'

/-- Witness for C1 at a concrete input: two same-class, non-overlapping
detections are both retained and their IoU is not above the threshold. -/
theorem nonMaxSuppression_class_aware_witness :
    (0 < (nmsResult [wd1, wd2] 0).length ∧ 1 < (nmsResult [wd1, wd2] 0).length ∧
      (0 : ℕ) ≠ 1 ∧
      ((nmsResult [wd1, wd2] 0).getD 0 dummyDet).Class
        = ((nmsResult [wd1, wd2] 0).getD 1 dummyDet).Class ∧
      wd1 ∈ [wd1, wd2]) ∧
    iouAbove ((nmsResult [wd1, wd2] 0).getD 0 dummyDet).Box
      ((nmsResult [wd1, wd2] 0).getD 1 dummyDet).Box 0 = false ∧
    (wd1 ∈ nmsResult [wd1, wd2] 0 ∨
      ∃ r ∈ nmsResult [wd1, wd2] 0,
        r.Class = wd1.Class ∧ iouAbove r.Box wd1.Box 0 = true) := by
  obtain ⟨h1, h2⟩ := nonMaxSuppression_class_aware [wd1, wd2] (0 : ℚ)
  have l0 : 0 < (nmsResult [wd1, wd2] (0 : ℚ)).length := by rw [nmsResult_wd]; simp
  have l1 : 1 < (nmsResult [wd1, wd2] (0 : ℚ)).length := by rw [nmsResult_wd]; simp
  have hcls : ((nmsResult [wd1, wd2] (0 : ℚ)).getD 0 dummyDet).Class
      = ((nmsResult [wd1, wd2] (0 : ℚ)).getD 1 dummyDet).Class := by
    rw [nmsResult_wd]; rfl
  exact ⟨⟨l0, l1, by decide, hcls, by simp⟩,
    h1 0 1 l0 l1 (by decide) hcls, h2 wd1 (by simp)⟩

/-- C9 counterexample: NonMaxSuppression sorts the caller-supplied slice in
place, so after a call on two detections given in ascending-confidence order
the slice no longer holds its original order. -/
theorem nonMaxSuppression_mutates_input :
    (NonMaxSuppression [wd2, wd1] (0 : ℚ)).1 ≠ [wd2, wd1] := by
  decide

/-- C9 amended: the caller-supplied detections slice is not left unchanged but
is sorted in place; after the call it holds a permutation of the original
elements ordered by descending confidence, and the result list is drawn from
that sorted content. -/
theorem nonMaxSuppression_frame (dets : List (Detection ℚ)) (thr : ℚ) :
    ((NonMaxSuppression dets thr).1).Perm dets ∧
    ((NonMaxSuppression dets thr).1).Sorted detGE ∧
    (NonMaxSuppression dets thr).2 ⊆ (NonMaxSuppression dets thr).1 :=
  ⟨List.perm_insertionSort detGE dets, List.sorted_insertionSort detGE dets,
    nmsSweep_subset (sortDetections dets) thr⟩

/-- Ordering used by the TopK sort: `indexed[i].value > indexed[j].value` in Go;
the comparison sort leaves the values weakly descending. -/
def pairGE (p q : ℕ × ℚ) : Prop := q.2 ≤ p.2

instance : DecidableRel pairGE :=
  fun p q => inferInstanceAs (Decidable (q.2 ≤ p.2))

instance : IsTotal (ℕ × ℚ) pairGE := ⟨fun a b => le_total b.2 a.2⟩

instance : IsTrans (ℕ × ℚ) pairGE := ⟨fun _ _ _ h1 h2 => le_trans h2 h1⟩

/-- Embedding of `ml.TopK`: clamp `k` to the length, pair every value with its
index, sort the pairs by descending value, return the first `k` indices. -/
def TopK (values : List ℚ) (k : ℕ) : List ℕ :=
  ((List.insertionSort pairGE values.enum).take (min k values.length)).map Prod.fst

theorem enum_getD {l : List ℚ} {i : ℕ} {x : ℚ} (h : (i, x) ∈ l.enum) :
    i < l.length ∧ l.getD i 0 = x := by
  rw [List.mk_mem_enum_iff_getElem?] at h
  have h1 := List.getElem?_eq_some.1 h
  exact ⟨h1.1, by rw [List.getD_eq_getElem?_getD, h]; rfl⟩

/-- C7: TopK returns exactly `min k (len values)` indices, each a valid index
into `values`, ordered so that the values at those indices are non-increasing. -/
theorem topK_spec (values : List ℚ) (k : ℕ) :
    (TopK values k).length = min k values.length ∧
    (∀ i ∈ TopK values k, i < values.length) ∧
    (TopK values k).Pairwise (fun i j => values.getD j 0 ≤ values.getD i 0) := by
  have hperm : (List.insertionSort pairGE values.enum).Perm values.enum :=
    List.perm_insertionSort pairGE values.enum
  have hlen : (List.insertionSort pairGE values.enum).length = values.length := by
    rw [hperm.length_eq, List.enum_length]
  have hmem : ∀ p ∈ (List.insertionSort pairGE values.enum).take (min k values.length),
      p ∈ values.enum := by
    intro p hp
    exact hperm.mem_iff.1 (List.mem_of_mem_take hp)
  refine ⟨?_, ?_, ?_⟩
  · rw [TopK, List.length_map, List.length_take, hlen]
    exact min_eq_left (min_le_right _ _)
  · intro i hi
    rcases List.mem_map.1 hi with ⟨p, hp, hpi⟩
    exact hpi ▸ (enum_getD (hmem p hp)).1
  · rw [TopK, List.pairwise_map]
    have hsorted : (List.insertionSort pairGE values.enum).Pairwise pairGE :=
      List.sorted_insertionSort pairGE values.enum
    have htake := hsorted.sublist
      (List.take_sublist (min k values.length) (List.insertionSort pairGE values.enum))
    refine List.Pairwise.imp_of_mem (fun {p q} hp hq hpq => ?_) htake
    have h1 := enum_getD (hmem p hp)
    have h2 := enum_getD (hmem q hq)
    rw [h1.2, h2.2]
    exact hpq

/-- Witness for C7 at a concrete input. -/
theorem topK_spec_witness :
    ((TopK [(1 : ℚ), 3, 2] 2).length = min 2 3 ∧ 1 ∈ TopK [(1 : ℚ), 3, 2] 2) ∧
    (1 < 3 ∧
      (TopK [(1 : ℚ), 3, 2] 2).Pairwise
        (fun i j => List.getD [(1 : ℚ), 3, 2] j 0 ≤ List.getD [(1 : ℚ), 3, 2] i 0)) := by
  obtain ⟨h1, h2, h3⟩ := topK_spec [(1 : ℚ), 3, 2] 2
  exact ⟨⟨h1, by decide⟩, h2 1 (by decide), h3⟩

/-- C8: at two zero-area boxes `ml.IoU`'s denominator is zero, so the Go code
performs the float division 0/0 and yields NaN; the embedding reports the
zero-denominator division as `none` instead of any defined finite value. -/
theorem iou_zero_area_boxes :
    IoU (⟨0, 0, 0, 0⟩ : Box ℚ) ⟨0, 0, 0, 0⟩ = none ∧
    iouDenom (⟨0, 0, 0, 0⟩ : Box ℚ) ⟨0, 0, 0, 0⟩ = 0 := by
  constructor
  · norm_num [IoU, iouDenom, interArea]
  · norm_num [iouDenom, interArea]

/-- Embedding of `ml.Softmax` over exact reals: subtract the running maximum
(seeded in Go with negative infinity, hence the list maximum on nonempty
input), exponentiate, and divide by the sum of exponentials.  The empty input
produces the empty output, as in Go. -/
noncomputable def Softmax : List ℝ → List ℝ
  | [] => []
  | x :: xs =>
      ((x :: xs).map fun v => Real.exp (v - xs.foldl max x)).map
        fun e => e / ((x :: xs).map fun v => Real.exp (v - xs.foldl max x)).sum

theorem sum_map_div (l : List ℝ) (c : ℝ) :
    (l.map fun e => e / c).sum = l.sum / c := by
  induction l with
  | nil => simp
  | cons x xs ih => simp [ih, add_div]

theorem exps_sum_pos (x : ℝ) (xs : List ℝ) (m : ℝ) :
    0 < ((x :: xs).map fun v => Real.exp (v - m)).sum := by
  simp only [List.map_cons, List.sum_cons]
  have h2 : 0 ≤ (xs.map fun v => Real.exp (v - m)).sum := by
    refine List.sum_nonneg fun y hy => ?_
    rcases List.mem_map.1 hy with ⟨z, _, rfl⟩
    exact (Real.exp_pos _).le
  have h1 := Real.exp_pos (x - m)
  linarith

theorem foldl_max_map_add (xs : List ℝ) (a c : ℝ) :
    (xs.map fun v => v + c).foldl max (a + c) = xs.foldl max a + c := by
  induction xs generalizing a with
  | nil => simp
  | cons y ys ih =>
      simp only [List.map_cons, List.foldl_cons]
      rw [max_add_add_right a y c]
      exact ih (max a y)

/-- C6: softmax of a nonempty score vector has the input's length, sums to 1,
and is invariant under adding the same constant to every score. -/
theorem softmax_spec (v : List ℝ) (c : ℝ) (h : v ≠ []) :
    (Softmax v).length = v.length ∧
    (Softmax v).sum = 1 ∧
    Softmax (v.map fun x => x + c) = Softmax v := by
  obtain ⟨x, xs, rfl⟩ := List.exists_cons_of_ne_nil h
  refine ⟨by simp [Softmax], ?_, ?_⟩
  · rw [Softmax, sum_map_div, div_self (ne_of_gt (exps_sum_pos x xs _))]
  · have hm : (xs.map fun v => v + c).foldl max (x + c) = xs.foldl max x + c :=
      foldl_max_map_add xs x c
    have hexps :
        (((x + c) :: xs.map fun v => v + c).map
            fun v => Real.exp (v - (xs.map fun v => v + c).foldl max (x + c)))
          = ((x :: xs).map fun v => Real.exp (v - xs.foldl max x)) := by
      rw [hm]
      simp only [List.map_cons, List.map_map]
      congr 1
      · exact congrArg Real.exp (by ring)
      · refine List.map_congr_left fun a _ => ?_
        exact congrArg Real.exp (by ring)
    simp only [List.map_cons]
    rw [Softmax, Softmax, hexps]

/-- Witness for C6 at the concrete vector `[0, 1]` and shift `2`. -/
theorem softmax_spec_witness :
    ([(0 : ℝ), 1] ≠ []) ∧
    ((Softmax [(0 : ℝ), 1]).length = [(0 : ℝ), 1].length ∧
      (Softmax [(0 : ℝ), 1]).sum = 1 ∧
      Softmax ([(0 : ℝ), 1].map fun x => x + 2) = Softmax [(0 : ℝ), 1]) :=
  ⟨by simp, softmax_spec [(0 : ℝ), 1] 2 (by simp)⟩

/-- Image dimensions, from Go's `image.Point` as used by `ProcessDetections`. -/
structure Pt where
  X : ℤ
  Y : ℤ

/-- Embedding of `postprocess.DetectionOptions`; the label map becomes an
association list. -/
structure DetectionOptions where
  Labels : List (ℤ × String)
  MaxDetections : ℤ
  ConfThreshold : ℝ
  IoUThreshold : ℝ

/-- Lookup in the Go label map `opts.Labels[maxClass]`. -/
def lookupLabel (labels : List (ℤ × String)) (c : ℤ) : Option String :=
  (labels.find? fun p => p.1 == c).map Prod.snd

/-- Arg-max loop of `ProcessDetections`: `maxProb` starts at the float zero
value and is replaced whenever `probs[c] > maxProb`, strictly. -/
noncomputable def argmaxProb (probs : List ℝ) (numClasses : ℕ) : ℝ × ℕ :=
  (List.range numClasses).foldl
    (fun mc c => if mc.1 < probs.getD c 0 then (probs.getD c 0, c) else mc)
    (0, 0)

/-- Per-candidate decode step of `ProcessDetections`: softmax the candidate's
logit block, take the arg-max class and probability, drop the candidate below
the confidence threshold or without a registered label, and convert its
normalized center-form box to pixel corner form. -/
noncomputable def decodeCandidate (logits boxes : List ℝ) (numClasses : ℕ)
    (imageSize : Pt) (opts : DetectionOptions) (i : ℕ) : Option (Detection ℝ) :=
  let probs := Softmax ((logits.drop (i * numClasses)).take numClasses)
  let mm := argmaxProb probs numClasses
  if mm.1 < opts.ConfThreshold then none
  else
    match lookupLabel opts.Labels (mm.2 : ℤ) with
    | none => none
    | some label =>
        some ⟨label, (mm.2 : ℤ), mm.1,
          ⟨(boxes.getD (i * 4) 0 - boxes.getD (i * 4 + 2) 0 / 2) * (imageSize.X : ℝ),
           (boxes.getD (i * 4 + 1) 0 - boxes.getD (i * 4 + 3) 0 / 2) * (imageSize.Y : ℝ),
           (boxes.getD (i * 4) 0 + boxes.getD (i * 4 + 2) 0 / 2) * (imageSize.X : ℝ),
           (boxes.getD (i * 4 + 1) 0 + boxes.getD (i * 4 + 3) 0 / 2) * (imageSize.Y : ℝ)⟩⟩

/-- Embedding of `postprocess.ProcessDetections` (its error result is always
nil and is omitted): decode every candidate block, then apply
non-maximum suppression.  No field of `opts` other than the label map and the
two thresholds is ever consulted. -/
noncomputable def ProcessDetections (logits boxes : List ℝ) (imageSize : Pt)
    (opts : DetectionOptions) : List (Detection ℝ) :=
  let numBoxes := boxes.length / 4
  let numClasses := logits.length / numBoxes
  nmsResult
    ((List.range numBoxes).filterMap
      (decodeCandidate logits boxes numClasses imageSize opts))
    opts.IoUThreshold

theorem softmax_singleton (x : ℝ) : Softmax [x] = [1] := by
  simp [Softmax, sub_self, Real.exp_zero]

/-- Keeping two detections: if the first dominates in confidence and their IoU
is not above the threshold while sharing a class or not, the sweep keeps both. -/
theorem nmsResult_pair (a b : Detection ℝ) (thr : ℝ) (h1 : detGE a b)
    (h2 : iouAbove a.Box b.Box thr = false) : nmsResult [a, b] thr = [a, b] := by
  have hsort : sortDetections [a, b] = [a, b] := by
    simp [sortDetections, List.insertionSort, List.orderedInsert, if_pos h1]
  rw [nmsResult, NonMaxSuppression, hsort]
  rw [nmsSweep]
  have hf : List.filter
      (fun e => !(decide (e.Class = a.Class) && iouAbove a.Box e.Box thr)) [b] = [b] := by
    simp [List.filter, h2]
  rw [hf, nmsSweep, List.filter_nil, nmsSweep]

/-- Options used in the C2 failing input: `MaxDetections` is configured as 1. -/
noncomputable def c2opts : DetectionOptions := ⟨[(0, "obj")], 1, 1 / 2, 9 / 20⟩

/-- Box buffer of the C2 failing input: two disjoint normalized center-form
boxes. -/
noncomputable def c2boxes : List ℝ :=
  [1 / 10, 1 / 10, 1 / 10, 1 / 10, 7 / 10, 7 / 10, 1 / 10, 1 / 10]

theorem argmax_one : argmaxProb [1] 1 = (1, 0) := by
  have hr : List.range 1 = [0] := rfl
  rw [argmaxProb, hr]
  norm_num

theorem c2cand0 : decodeCandidate [0, 0] c2boxes 1 ⟨100, 100⟩ c2opts 0
    = some ⟨"obj", 0, 1, ⟨5, 5, 15, 15⟩⟩ := by
  simp only [decodeCandidate]
  norm_num [softmax_singleton, argmax_one, lookupLabel, c2opts,
    c2boxes, List.getD_cons_zero, List.getD_cons_succ, List.find?]

theorem c2cand1 : decodeCandidate [0, 0] c2boxes 1 ⟨100, 100⟩ c2opts 1
    = some ⟨"obj", 0, 1, ⟨65, 65, 75, 75⟩⟩ := by
  simp only [decodeCandidate]
  norm_num [softmax_singleton, argmax_one, lookupLabel, c2opts,
    c2boxes, List.getD_cons_zero, List.getD_cons_succ, List.find?]

theorem c2pipeline :
    ProcessDetections [0, 0] c2boxes ⟨100, 100⟩ c2opts
      = [⟨"obj", 0, 1, ⟨5, 5, 15, 15⟩⟩, ⟨"obj", 0, 1, ⟨65, 65, 75, 75⟩⟩] := by
  have hlen : c2boxes.length / 4 = 2 := by norm_num [c2boxes]
  have hcls : ([(0 : ℝ), 0].length : ℕ) / 2 = 1 := by norm_num
  have hrange : List.range 2 = [0, 1] := rfl
  rw [ProcessDetections]
  simp only [hlen, hcls, hrange, List.filterMap_cons, c2cand0, c2cand1,
    List.filterMap_nil]
  rw [nmsResult_pair]
  · exact le_refl (1 : ℝ)
  · norm_num [iouAbove, IoU, iouDenom, interArea, c2opts]

/-- C2 (refuting the claim as an implementation defect): the `MaxDetections`
field is documented as "Maximum number of detections to return" but
`ProcessDetections` never consults it — with the cap configured as 1 and two
surviving, non-overlapping candidates, the call returns 2 detections instead
of truncating the kept list. -/
theorem processDetections_ignores_maxDetections :
    c2opts.MaxDetections = 1 ∧
    (ProcessDetections [0, 0] c2boxes ⟨100, 100⟩ c2opts).length = 2 := by
  refine ⟨rfl, ?_⟩
  rw [c2pipeline]
  rfl

/-- Go strings are modelled as lists of characters. -/
abbrev Tok := List Char

/-- Vocabulary: Go `map[string]int` as an association list with integer ids. -/
abbrev VocabMap := List (Tok × ℤ)

/-- Map lookup `vocab[token]` together with its ok flag. -/
def vlookup (vocab : VocabMap) (t : Tok) : Option ℤ :=
  (vocab.find? fun p => p.1 == t).map Prod.snd

/-- Map access `vocab[token]` without the ok flag: Go yields the zero value 0
for a missing key. -/
def vget (vocab : VocabMap) (t : Tok) : ℤ := (vlookup vocab t).getD 0

/-- Canonical special-token spellings hard-coded in `pkg/tokenizer`. -/
def padTok : Tok := "[PAD]".toList

/-- Canonical UNK spelling. -/
def unkTok : Tok := "[UNK]".toList

/-- Canonical CLS spelling. -/
def clsTok : Tok := "[CLS]".toList

/-- Canonical SEP spelling. -/
def sepTok : Tok := "[SEP]".toList

/-- Word-character class of the Go regexp (`0-9A-Za-z_`, ASCII). -/
def isWordChar (c : Char) : Bool := c.isAlphanum || c = '_'

/-- Whitespace class of the Go regexp (tab, newline, form feed, return, space). -/
def isSpaceGo (c : Char) : Bool :=
  c = ' ' || c = '\t' || c = '\n' || c = '\x0c' || c = '\r'

/-- Square-bracket characters, excluded from the bracket-delimited run. -/
def isBracketChar (c : Char) : Bool := c = '[' || c = ']'

/-- Character class of the third regexp alternative: non-word, non-space. -/
def isPunctChar (c : Char) : Bool := !isWordChar c && !isSpaceGo c

/-- Coarse tokenization of `Tokenizer.Encode`: the leftmost-first scan of the
Go pattern with three alternatives tried in order at each position — a
bracket-delimited run of at least one non-bracket character, a run of word
characters, a run of non-word non-space characters; whitespace separates and
produces no token. -/
def tokenize : List Char → List Tok
  | [] => []
  | c :: rest =>
      if c = '[' ∧ rest.takeWhile (fun d => !isBracketChar d) ≠ [] ∧
          (rest.dropWhile fun d => !isBracketChar d).head? = some ']' then
        ('[' :: rest.takeWhile (fun d => !isBracketChar d) ++ [']'])
          :: tokenize (rest.dropWhile fun d => !isBracketChar d).tail
      else if isWordChar c then
        (c :: rest.takeWhile isWordChar) :: tokenize (rest.dropWhile isWordChar)
      else if isSpaceGo c then
        tokenize rest
      else
        (c :: rest.takeWhile isPunctChar) :: tokenize (rest.dropWhile isPunctChar)
termination_by l => l.length
decreasing_by
  · simp only [List.length_cons, List.length_tail]
    have h := List.Sublist.length_le (List.dropWhile_sublist (l := rest) fun d => !isBracketChar d)
    omega
  · simp only [List.length_cons]
    have h := List.Sublist.length_le (List.dropWhile_sublist (l := rest) isWordChar)
    omega
  · simp only [List.length_cons]
    omega
  · simp only [List.length_cons]
    have h := List.Sublist.length_le (List.dropWhile_sublist (l := rest) isPunctChar)
    omega

/-- Continuation marker `##` applied before vocabulary lookup for positions
after the first, as in `wordPiece`. -/
def mark (start : Nat) (s : Tok) : Tok := if start = 0 then s else '#' :: '#' :: s

/-- Substring `word[start:e]` of the Go slicing. -/
def sub (word : Tok) (start e : Nat) : Tok := (word.drop start).take (e - start)

/-- Inner loop of `wordPiece`: scan the end index downward from the bound
while it stays above `start`, stopping at the first (hence longest) marked
substring present in the vocabulary; `none` when nothing matches. -/
def wpFind (vocab : VocabMap) (word : Tok) (start : Nat) : Nat → Option Nat
  | 0 => none
  | e + 1 =>
      if e + 1 ≤ start then none
      else if (vlookup vocab (mark start (sub word start (e + 1)))).isSome then
        some (e + 1)
      else wpFind vocab word start e

theorem wpFind_bounds {vocab : VocabMap} {word : Tok} {start : Nat} :
    ∀ {b e : Nat}, wpFind vocab word start b = some e → start < e ∧ e ≤ b := by
  intro b
  induction b with
  | zero => intro e h; cases h
  | succ b ih =>
      intro e h
      rw [wpFind] at h
      split at h
      · cases h
      · split at h
        · cases h
          omega
        · have := ih h
          omega

/-- Outer loop of `wordPiece`: repeatedly take the longest vocabulary match at
the current position; `none` models the Go early return of a single UNK piece
when no substring matches at some position. -/
def wpLoop (vocab : VocabMap) (word : Tok) (start : Nat) : Option (List Tok) :=
  if _h : start < word.length then
    match hf : wpFind vocab word start word.length with
    | none => none
    | some e =>
        (wpLoop vocab word e).map fun rest => mark start (sub word start e) :: rest
  else some []
termination_by word.length - start
decreasing_by
  have := wpFind_bounds hf
  omega

/-- Embedding of `Tokenizer.wordPiece`. -/
def wordPiece (vocab : VocabMap) (word : Tok) : List Tok :=
  if (vlookup vocab word).isSome then [word]
  else
    match wpLoop vocab word 0 with
    | none => [unkTok]
    | some ps => ps

/-- Stage of `Tokenizer.Encode` mapping one coarse token to wordpiece tokens:
a token with a leading `[` and a trailing `]` is passed through verbatim;
any other token is lowercased and either found in the vocabulary or split by
`wordPiece`. -/
def coarsePieces (vocab : VocabMap) (tok : Tok) : List Tok :=
  if tok.head? = some '[' ∧ tok.getLast? = some ']' then [tok]
  else
    if (vlookup vocab (tok.map Char.toLower)).isSome then [tok.map Char.toLower]
    else wordPiece vocab (tok.map Char.toLower)

/-- Id/token pair emitted for one wordpiece token in the assembly loop of
`Encode`: the vocabulary id when present, otherwise the UNK id and UNK token. -/
def pieceEntry (vocab : VocabMap) (t : Tok) : ℤ × Tok :=
  match vlookup vocab t with
  | some i => (i, t)
  | none => (vget vocab unkTok, unkTok)

/-- All wordpiece tokens produced for an input text. -/
def wpTokens (vocab : VocabMap) (text : List Char) : List Tok :=
  (tokenize text).bind (coarsePieces vocab)

/-- The id/token entries of the content pieces. -/
def entriesOf (vocab : VocabMap) (text : List Char) : List (ℤ × Tok) :=
  (wpTokens vocab text).map (pieceEntry vocab)

/-- Assembled id sequence before length normalization: CLS, content, SEP. -/
def idsOf (vocab : VocabMap) (text : List Char) : List ℤ :=
  vget vocab clsTok :: ((entriesOf vocab text).map Prod.fst ++ [vget vocab sepTok])

/-- Assembled token sequence before length normalization. -/
def toksOf (vocab : VocabMap) (text : List Char) : List Tok :=
  clsTok :: ((entriesOf vocab text).map Prod.snd ++ [sepTok])

/-- Output record of `Tokenizer.Encode`. -/
structure TokenizerOutput where
  InputIds : List ℤ
  AttentionMask : List ℤ
  Tokens : List Tok
deriving DecidableEq, Repr

/-- Pure part of `Tokenizer.Encode`: assemble CLS + pieces + SEP with an
all-ones attention mask, then hard-truncate all three sequences to
`maxLength`, or right-pad with the PAD id, zero attention, and the PAD token. -/
def encodeCore (vocab : VocabMap) (text : List Char) (maxLength : Nat) :
    TokenizerOutput :=
  if maxLength < (idsOf vocab text).length then
    ⟨(idsOf vocab text).take maxLength,
     (List.replicate (idsOf vocab text).length (1 : ℤ)).take maxLength,
     (toksOf vocab text).take maxLength⟩
  else
    ⟨idsOf vocab text
       ++ List.replicate (maxLength - (idsOf vocab text).length) (vget vocab padTok),
     List.replicate (idsOf vocab text).length (1 : ℤ)
       ++ List.replicate (maxLength - (idsOf vocab text).length) 0,
     toksOf vocab text
       ++ List.replicate (maxLength - (idsOf vocab text).length) padTok⟩

/-- Embedding of `Tokenizer.Encode` with its error channel: the single Go
return statement supplies a nil error. -/
def Encode (vocab : VocabMap) (text : List Char) (maxLength : Nat) :
    Except String TokenizerOutput :=
  Except.ok (encodeCore vocab text maxLength)

/-- Number of assembled (pre-normalization) sequence entries: CLS, the content
pieces, and SEP. -/
def assembledLen (vocab : VocabMap) (text : List Char) : Nat :=
  (wpTokens vocab text).length + 2

theorem idsOf_length (vocab : VocabMap) (text : List Char) :
    (idsOf vocab text).length = assembledLen vocab text := by
  simp [idsOf, entriesOf, assembledLen]

theorem toksOf_length (vocab : VocabMap) (text : List Char) :
    (toksOf vocab text).length = assembledLen vocab text := by
  simp [toksOf, entriesOf, assembledLen]

/-- C3: for every vocabulary, text and maxLength, the three sequences returned
by Encode all have length exactly maxLength; the attention mask is 1 on the
positions holding assembled (real or special) tokens and 0 on the PAD padding
positions, which hold the PAD token. -/
theorem encode_shape (vocab : VocabMap) (text : List Char) (maxLength : ℕ) :
    (encodeCore vocab text maxLength).InputIds.length = maxLength ∧
    (encodeCore vocab text maxLength).AttentionMask.length = maxLength ∧
    (encodeCore vocab text maxLength).Tokens.length = maxLength ∧
    (encodeCore vocab text maxLength).AttentionMask
      = List.replicate (min (assembledLen vocab text) maxLength) 1
        ++ List.replicate (maxLength - min (assembledLen vocab text) maxLength) 0 ∧
    (encodeCore vocab text maxLength).Tokens.drop
        (min (assembledLen vocab text) maxLength)
      = List.replicate (maxLength - min (assembledLen vocab text) maxLength)
          padTok := by
  have hni := idsOf_length vocab text
  have hnt := toksOf_length vocab text
  rw [encodeCore]
  split
  · rename_i h
    have hmin : min (assembledLen vocab text) maxLength = maxLength := by omega
    refine ⟨?_, ?_, ?_, ?_, ?_⟩
    · rw [List.length_take]; omega
    · rw [List.length_take, List.length_replicate]; omega
    · rw [List.length_take]; omega
    · rw [hmin, List.take_replicate, Nat.sub_self, List.replicate_zero,
        List.append_nil, min_eq_left (le_of_lt h)]
    · rw [hmin, Nat.sub_self, List.replicate_zero, List.drop_eq_nil_of_le]
      rw [List.length_take]
      exact min_le_left _ _
  · rename_i h
    have hle : (idsOf vocab text).length ≤ maxLength := by omega
    have hmin : min (assembledLen vocab text) maxLength = (idsOf vocab text).length := by
      omega
    refine ⟨?_, ?_, ?_, ?_, ?_⟩
    · rw [List.length_append, List.length_replicate]; omega
    · rw [List.length_append, List.length_replicate, List.length_replicate]; omega
    · rw [List.length_append, List.length_replicate]; omega
    · rw [hmin]
    · rw [hmin]
      have hlen2 : (idsOf vocab text).length = (toksOf vocab text).length := by omega
      rw [hlen2]
      exact List.drop_left _ _

theorem takeWhile_append_stop {p : Char → Bool} (l : List Char) (x : Char)
    (t : List Char) (hl : ∀ c ∈ l, p c = true) (hx : p x = false) :
    (l ++ x :: t).takeWhile p = l ∧ (l ++ x :: t).dropWhile p = x :: t := by
  induction l with
  | nil => simp [List.takeWhile_cons, List.dropWhile_cons, hx]
  | cons c cs ih =>
      have hc : p c = true := hl c (List.mem_cons_self _ _)
      have ih' := ih fun d hd => hl d (List.mem_cons_of_mem _ hd)
      simp [List.takeWhile_cons, List.dropWhile_cons, hc, ih'.1, ih'.2]

theorem tokenize_cons (c : Char) (rest : List Char) :
    tokenize (c :: rest)
      = if c = '[' ∧ rest.takeWhile (fun d => !isBracketChar d) ≠ [] ∧
            (rest.dropWhile fun d => !isBracketChar d).head? = some ']' then
          ('[' :: rest.takeWhile (fun d => !isBracketChar d) ++ [']'])
            :: tokenize (rest.dropWhile fun d => !isBracketChar d).tail
        else if isWordChar c then
          (c :: rest.takeWhile isWordChar) :: tokenize (rest.dropWhile isWordChar)
        else if isSpaceGo c then tokenize rest
        else (c :: rest.takeWhile isPunctChar)
          :: tokenize (rest.dropWhile isPunctChar) := by
  rw [tokenize.eq_def]

theorem tokenize_bracket (inner : List Char) (h1 : inner ≠ [])
    (h2 : ∀ c ∈ inner, isBracketChar c = false) :
    tokenize ('[' :: (inner ++ [']'])) = ['[' :: (inner ++ [']'])] := by
  have hp : ∀ c ∈ inner, (!isBracketChar c) = true := fun c hc => by
    rw [h2 c hc]; rfl
  have hx : (!isBracketChar ']') = false := rfl
  obtain ⟨htw, hdw⟩ := takeWhile_append_stop inner ']' [] hp hx
  rw [tokenize_cons]
  rw [if_pos ⟨rfl, by rw [htw]; exact h1, by rw [hdw]; rfl⟩]
  rw [htw, hdw]
  simp [tokenize]

theorem coarsePieces_bracket (vocab : VocabMap) (inner : List Char) :
    coarsePieces vocab ('[' :: (inner ++ [']'])) = ['[' :: (inner ++ [']'])] := by
  rw [coarsePieces, if_pos]
  refine ⟨rfl, ?_⟩
  show ('[' :: (inner ++ [']'])).getLast? = some ']'
  rw [← List.cons_append]
  exact List.getLast?_concat _

/-- Vocabulary used in the C4 counterexample: the five special tokens with the
canonical spelling "[MASK]" registered, but no lowercase variant. -/
def c4vocab : VocabMap :=
  [(padTok, 0), (unkTok, 1), (clsTok, 2), (sepTok, 3), ("[MASK]".toList, 4)]

/-- C4 counterexample: the input "[mask]" case-insensitively matches the
registered special token "[MASK]", yet Encode emits the UNK piece with the
UNK id — not the canonical spelling — because this tokenizer passes
bracket-delimited tokens through verbatim and looks them up case-sensitively. -/
theorem encode_no_case_insensitive_specials :
    (encodeCore c4vocab ('[' :: ("mask".toList ++ [']'])) 4).Tokens
        = [clsTok, unkTok, sepTok, padTok]
      ∧ "[MASK]".toList
          ∉ (encodeCore c4vocab ('[' :: ("mask".toList ++ [']'])) 4).Tokens
      ∧ (encodeCore c4vocab ('[' :: ("mask".toList ++ [']'])) 4).InputIds
        = [2, 1, 3, 0] := by
  have htk : tokenize ('[' :: ("mask".toList ++ [']']))
      = ['[' :: ("mask".toList ++ [']'])] :=
    tokenize_bracket _ (by decide) (by decide)
  have hw : wpTokens c4vocab ('[' :: ("mask".toList ++ [']']))
      = ['[' :: ("mask".toList ++ [']'])] := by
    rw [wpTokens, htk]; decide
  have hids : idsOf c4vocab ('[' :: ("mask".toList ++ [']'])) = [2, 1, 3] := by
    rw [idsOf, entriesOf, hw]; decide
  have htoks : toksOf c4vocab ('[' :: ("mask".toList ++ [']']))
      = [clsTok, unkTok, sepTok] := by
    rw [toksOf, entriesOf, hw]; decide
  rw [encodeCore]
  simp only [hids, htoks]
  norm_num
  decide

/-- C4 amended: a bracket-delimited coarse token is emitted with its input
spelling, verbatim; it maps to its vocabulary id only when that exact spelling
is registered, and otherwise becomes the UNK piece — no case-insensitive
canonicalization takes place in this tokenizer. -/
theorem encode_bracket_verbatim (vocab : VocabMap) (inner : List Char)
    (h1 : inner ≠ []) (h2 : ∀ c ∈ inner, isBracketChar c = false) :
    (encodeCore vocab ('[' :: (inner ++ [']'])) 3).Tokens
      = [clsTok,
         if (vlookup vocab ('[' :: (inner ++ [']']))).isSome then
           '[' :: (inner ++ [']'])
         else unkTok,
         sepTok] := by
  have htok : wpTokens vocab ('[' :: (inner ++ [']']))
      = ['[' :: (inner ++ [']'])] := by
    rw [wpTokens, tokenize_bracket inner h1 h2]
    simp [coarsePieces_bracket vocab inner]
  have hids : (idsOf vocab ('[' :: (inner ++ [']']))).length = 3 := by
    simp [idsOf, entriesOf, htok]
  rw [encodeCore, if_neg (by omega)]
  simp only [hids, Nat.sub_self, List.replicate_zero, List.append_nil]
  rw [toksOf, entriesOf, htok]
  cases hv : vlookup vocab ('[' :: (inner ++ [']'])) with
  | none => simp [pieceEntry, hv]
  | some i => simp [pieceEntry, hv]

/-- Witness for the amended C4 theorem at the concrete input "[mask]". -/
theorem encode_bracket_verbatim_witness :
    ("mask".toList ≠ [] ∧ ∀ c ∈ "mask".toList, isBracketChar c = false) ∧
    (encodeCore c4vocab ('[' :: ("mask".toList ++ [']'])) 3).Tokens
      = [clsTok,
         if (vlookup c4vocab ('[' :: ("mask".toList ++ [']']))).isSome then
           '[' :: ("mask".toList ++ [']'])
         else unkTok,
         sepTok] :=
  ⟨⟨by decide, by decide⟩,
    encode_bracket_verbatim c4vocab "mask".toList (by decide) (by decide)⟩

/-- C10: although its Go signature is fallible, Encode returns a nil error on
every input: its single return statement supplies the output and nil. -/
theorem encode_always_ok (vocab : VocabMap) (text : List Char) (maxLength : ℕ) :
    ∃ out, Encode vocab text maxLength = Except.ok out :=
  ⟨encodeCore vocab text maxLength, rfl⟩

theorem wpFind_found {vocab : VocabMap} {word : Tok} {start : ℕ} :
    ∀ {b e : ℕ}, wpFind vocab word start b = some e →
      (vlookup vocab (mark start (sub word start e))).isSome = true := by
  intro b
  induction b with
  | zero => intro e h; cases h
  | succ b ih =>
      intro e h
      rw [wpFind] at h
      split at h
      · cases h
      · rename_i hcond
        split at h
        · rename_i hfound
          cases h
          exact hfound
        · exact ih h

theorem wpFind_maximal {vocab : VocabMap} {word : Tok} {start : ℕ} :
    ∀ {b e : ℕ}, wpFind vocab word start b = some e →
      ∀ e', e < e' → e' ≤ b →
        (vlookup vocab (mark start (sub word start e'))).isSome = false := by
  intro b
  induction b with
  | zero => intro e h; cases h
  | succ b ih =>
      intro e h e' he1 he2
      rw [wpFind] at h
      split at h
      · cases h
      · rename_i hcond
        split at h
        · rename_i hfound
          cases h
          omega
        · rename_i hnot
          rcases Nat.lt_or_ge e' (b + 1) with hlt | hge
          · exact ih h e' he1 (by omega)
          · have : e' = b + 1 := by omega
            subst this
            exact Bool.not_eq_true _ ▸ hnot

theorem wpFind_none {vocab : VocabMap} {word : Tok} {start : ℕ} :
    ∀ {b : ℕ}, wpFind vocab word start b = none →
      ∀ e', start < e' → e' ≤ b →
        (vlookup vocab (mark start (sub word start e'))).isSome = false := by
  intro b
  induction b with
  | zero => intro _ e' _ h2; omega
  | succ b ih =>
      intro h e' he1 he2
      rw [wpFind] at h
      split at h
      · omega
      · split at h
        · cases h
        · rename_i hnot
          rcases Nat.lt_or_ge e' (b + 1) with hlt | hge
          · exact ih h e' he1 (by omega)
          · have : e' = b + 1 := by omega
            subst this
            exact Bool.not_eq_true _ ▸ hnot

/-- Modelled from the spec: the greedy longest-match scan of WordPiece as a
relation — at each position the longest vocabulary-registered substring
starting there is taken (prefixed with the continuation marker for positions
after the first), the scan advances past it, and it stops when the word is
consumed. -/
inductive GreedyFrom (vocab : VocabMap) (word : Tok) : ℕ → List Tok → Prop
  | done (start : ℕ) (h : word.length ≤ start) : GreedyFrom vocab word start []
  | step (start e : ℕ) (rest : List Tok)
      (h1 : start < e) (h2 : e ≤ word.length)
      (h3 : (vlookup vocab (mark start (sub word start e))).isSome = true)
      (h4 : ∀ e', e < e' → e' ≤ word.length →
        (vlookup vocab (mark start (sub word start e'))).isSome = false)
      (h5 : GreedyFrom vocab word e rest) :
      GreedyFrom vocab word start (mark start (sub word start e) :: rest)

theorem wpLoop_greedy (vocab : VocabMap) (word : Tok) :
    ∀ start ps, wpLoop vocab word start = some ps →
      GreedyFrom vocab word start ps := by
  suffices H : ∀ n start ps, word.length - start < n →
      wpLoop vocab word start = some ps → GreedyFrom vocab word start ps by
    exact fun start ps h => H (word.length - start + 1) start ps (by omega) h
  intro n
  induction n with
  | zero => omega
  | succ n ih =>
      intro start ps hn h
      rw [wpLoop] at h
      split at h
      · rename_i hlt
        split at h
        · cases h
        · rename_i e hf
          rcases Option.map_eq_some'.1 h with ⟨rest, hrest, hps⟩
          obtain ⟨hb1, hb2⟩ := wpFind_bounds hf
          subst hps
          exact GreedyFrom.step start e rest hb1 hb2 (wpFind_found hf)
            (wpFind_maximal hf) (ih e rest (by omega) hrest)
      · rename_i hge
        cases h
        exact GreedyFrom.done start (by omega)

/-- Concatenation of a wordPiece result with the continuation markers stripped
from every piece after the first (the first piece is emitted unmarked). -/
def stripJoin : List Tok → Tok
  | [] => []
  | p :: rest => p ++ (rest.map fun t => t.drop 2).flatten

theorem wpLoop_concat_pos (vocab : VocabMap) (word : Tok) :
    ∀ start ps, 0 < start → wpLoop vocab word start = some ps →
      (ps.map fun t => t.drop 2).flatten = word.drop start := by
  suffices H : ∀ n start ps, word.length - start < n → 0 < start →
      wpLoop vocab word start = some ps →
      (ps.map fun t => t.drop 2).flatten = word.drop start by
    exact fun start ps hpos h => H (word.length - start + 1) start ps (by omega) hpos h
  intro n
  induction n with
  | zero => omega
  | succ n ih =>
      intro start ps hn hpos h
      rw [wpLoop] at h
      split at h
      · rename_i hlt
        split at h
        · cases h
        · rename_i e hf
          rcases Option.map_eq_some'.1 h with ⟨rest, hrest, hps⟩
          obtain ⟨hb1, hb2⟩ := wpFind_bounds hf
          subst hps
          have hmark : mark start (sub word start e)
              = '#' :: '#' :: sub word start e := by
            rw [mark, if_neg (by omega)]
          have ihrest := ih e rest (by omega) (by omega) hrest
          simp only [List.map_cons, List.flatten_cons, hmark, List.drop_succ_cons,
            List.drop_zero]
          rw [ihrest]
          show sub word start e ++ word.drop e = word.drop start
          have : word.drop e = (word.drop start).drop (e - start) := by
            rw [List.drop_drop]
            congr 1
            omega
          rw [sub, this, List.take_append_drop]
      · rename_i hge
        cases h
        simp only [List.map_nil, List.flatten_nil]
        rw [List.drop_eq_nil_of_le (by omega)]

theorem wpLoop_concat_zero (vocab : VocabMap) (word : Tok) (ps : List Tok)
    (h : wpLoop vocab word 0 = some ps) : stripJoin ps = word := by
  rw [wpLoop] at h
  split at h
  · rename_i hlt
    split at h
    · cases h
    · rename_i e hf
      rcases Option.map_eq_some'.1 h with ⟨rest, hrest, hps⟩
      obtain ⟨hb1, hb2⟩ := wpFind_bounds hf
      subst hps
      have hmark : mark 0 (sub word 0 e) = sub word 0 e := by rw [mark, if_pos rfl]
      rw [hmark, stripJoin]
      rw [wpLoop_concat_pos vocab word e rest hb1 hrest]
      have hsub : sub word 0 e = word.take e := by simp [sub]
      rw [hsub, List.take_append_drop]
  · rename_i hge
    cases h
    rw [stripJoin]
    exact (List.eq_nil_of_length_eq_zero (by omega)).symm

/-- C5: for a word that is not itself a vocabulary entry, wordPiece either
aborts (no marked substring of any length matches at some position — the inner
scan returns none) and emits exactly the single UNK piece, or its output is
the greedy longest-match split whose concatenation with the continuation
markers stripped reproduces the word. -/
theorem wordPiece_spec (vocab : VocabMap) (word : Tok)
    (h : vlookup vocab word = none) :
    (wpLoop vocab word 0 = none ∧ wordPiece vocab word = [unkTok]) ∨
    (GreedyFrom vocab word 0 (wordPiece vocab word) ∧
      stripJoin (wordPiece vocab word) = word) := by
  have hno : ¬((vlookup vocab word).isSome = true) := by simp [h]
  cases hl : wpLoop vocab word 0 with
  | none =>
      left
      refine ⟨rfl, ?_⟩
      rw [wordPiece, if_neg hno, hl]
  | some ps =>
      right
      have hwp : wordPiece vocab word = ps := by rw [wordPiece, if_neg hno, hl]
      rw [hwp]
      exact ⟨wpLoop_greedy vocab word 0 ps hl, wpLoop_concat_zero vocab word ps hl⟩

/-- Vocabulary for the C5 witness: the pieces "ab" and "##cd". -/
def c5vocab : VocabMap := [("ab".toList, 0), ("##cd".toList, 1)]

/-- Witness for C5 at the concrete word "abcd", absent from the vocabulary. -/
theorem wordPiece_spec_witness :
    (vlookup c5vocab "abcd".toList = none) ∧
    ((wpLoop c5vocab "abcd".toList 0 = none ∧
        wordPiece c5vocab "abcd".toList = [unkTok]) ∨
      (GreedyFrom c5vocab "abcd".toList 0 (wordPiece c5vocab "abcd".toList) ∧
        stripJoin (wordPiece c5vocab "abcd".toList) = "abcd".toList)) :=
  ⟨by decide, wordPiece_spec c5vocab "abcd".toList (by decide)⟩

/-- Witness applying the C9 amended theorem at a concrete input. -/
theorem nonMaxSuppression_frame_witness :
    ((NonMaxSuppression [wd1, wd2] (0 : ℚ)).1).Perm [wd1, wd2] ∧
    ((NonMaxSuppression [wd1, wd2] (0 : ℚ)).1).Sorted detGE ∧
    (NonMaxSuppression [wd1, wd2] (0 : ℚ)).2
      ⊆ (NonMaxSuppression [wd1, wd2] (0 : ℚ)).1 :=
  nonMaxSuppression_frame [wd1, wd2] 0

end Infergo
